import Mathlib

/-
Verification of the grsync task pipeline (task.go).

Bytes of the rsync output streams are modelled as `Char` lists (the parsed
text is ASCII).  Pure functions of the source are translated one-to-one;
the stdout/stderr processing loops become folds over the framed lines, and
Run's control flow becomes a function from the outcome of the external
process handle to the sequence of lifecycle steps plus the returned error.
-/

namespace Grsync

/-! ## Line framer: scanLines (task.go:120-139) -/

/-- A byte belonging to the cutset "\r\n" of bytes.IndexAny in scanLines. -/
def isTermChar (c : Char) : Bool := c = '\r' || c = '\n'

/-- bytes.IndexAny data "\r\n": index of the first line-terminator byte. -/
def idxAny : List Char → Option Nat
  | [] => none
  | c :: cs => if isTermChar c then some 0 else (idxAny cs).map (fun i => i + 1)

/-- scanLines (task.go:120-139), a bufio.SplitFunc.  Returns
(advance, token, error); the Go nil slice and nil error become `[]` and
`none`.  The Go guard `len(data) > i+1 && data[i+1] == '\n'` is rendered as
`data.get? (i+1) = some '\n'`. -/
def scanLines (data : List Char) (atEOF : Bool) : Nat × List Char × Option String :=
  if atEOF && data.isEmpty then (0, [], none)
  else
    match idxAny data with
    | some i =>
      if data.get? i = some '\n' then (i + 1, data.take i, none)
      else if data.get? (i + 1) = some '\n' then (i + 2, data.take i, none)
      else (i + 1, data.take i, none)
    | none => if atEOF then (data.length, data, none) else (0, [], none)

/-- Driver of the bufio.Scanner loop of processStdout, with the whole stream
buffered (every call sees atEOF = true).  The fuel argument only makes the
recursion structural; `runScanner` supplies enough fuel for the whole input,
since every round with nonempty data advances by at least one byte. -/
def runScannerF : Nat → List Char → List (List Char)
  | 0, _ => []
  | fuel + 1, data =>
    if data = [] then []
    else (scanLines data true).2.1 :: runScannerF fuel (data.drop (scanLines data true).1)

/-- All lines the scanner produces from a fully buffered stream. -/
def runScanner (data : List Char) : List (List Char) :=
  runScannerF (data.length + 1) data

/-- A chunk of text free of line-terminator bytes. -/
def termFree (l : List Char) : Bool := l.all (fun c => !(isTermChar c))

/-- The three line terminators tolerated by scanLines. -/
inductive Term
  | lf
  | crlf
  | cr
deriving DecidableEq

/-- The bytes of a terminator. -/
def Term.chars : Term → List Char
  | Term.lf => ['\n']
  | Term.crlf => ['\r', '\n']
  | Term.cr => ['\r']

/-- A stream of terminated lines followed by trailing unterminated bytes. -/
def joinSegs : List (List Char × Term) → List Char → List Char
  | [], rest => rest
  | (l, t) :: ss, rest => l ++ t.chars ++ joinSegs ss rest

/-- A decomposition is canonical when no bare-CR terminator is immediately
followed by an LF byte; such a CR+LF pair is one crlf terminator, as the
spec itself states. -/
def canonical : List (List Char × Term) → List Char → Bool
  | [], _ => true
  | (_, t) :: ss, rest =>
    (!(t = Term.cr) || !((joinSegs ss rest).head? = some '\n')) && canonical ss rest

/-! ## Pattern matchers of processStdout (task.go:144-147)

Modelled from the spec: the Matcher wrapper (newMatcher with Match, Extract,
All and ExtractAllStringSubmatch) is repository code that is not part of the
given sources; per spec section 4.1, Match is true iff the pattern matches
anywhere in the line, Extract returns the first capture group of the first
match (empty when there is no match), All returns the full texts of all
matches in order, and ExtractAllStringSubmatch returns up to a bounded
number of match occurrences with their groups.  Each of the four fixed
patterns of task.go is rendered as a direct leftmost-first matcher with
greedy quantifier semantics, as Go's regexp package implements. -/

/-- Go regexp \s, the class [\t\n\f\r ]. -/
def isGoSpace (c : Char) : Bool :=
  c = ' ' || c = '\t' || c = '\n' || c = Char.ofNat 12 || c = '\r'

/-- Pattern `(\d+%)` tried at one start position: a maximal digit run
followed by a percent sign (a shorter run would leave a digit where the
percent is required, so greedy backtracking can never help). -/
def progressTryAt (s : List Char) : Option (List Char) :=
  if s.takeWhile Char.isDigit = [] then none
  else if (s.dropWhile Char.isDigit).head? = some '%' then
    some (s.takeWhile Char.isDigit ++ ['%'])
  else none

/-- Leftmost match of `(\d+%)`; its one group equals the full match. -/
def progressFind? : List Char → Option (List Char)
  | [] => none
  | c :: r =>
    match progressTryAt (c :: r) with
    | some t => some t
    | none => progressFind? r

/-- Tail `\d+[A-Za-z]*` of the total pattern, greedy at a fixed position. -/
def totalAfterDot (s : List Char) : Option (List Char) :=
  if s.takeWhile Char.isDigit = [] then none
  else
    some (s.takeWhile Char.isDigit ++
      (s.dropWhile Char.isDigit).takeWhile Char.isAlpha)

/-- Pattern `\d+.\d+[A-Za-z]*` (the dot is unescaped: any byte but a
newline) where the first `\d+` takes k digits of the leading run; greedy
semantics try the longest k first, which the recursion realises. -/
def totalTryK (s : List Char) : Nat → Option (List Char)
  | 0 => none
  | k + 1 =>
    (match s.drop (k + 1) with
     | x :: r2 =>
       if x = '\n' then none
       else (totalAfterDot r2).map (fun tail => s.take (k + 1) ++ x :: tail)
     | [] => none).orElse (fun _ => totalTryK s k)

/-- Matcher `^\s*(\d+.\d+[A-Za-z]*)` (task.go:146): anchored, so the group
must match right after the maximal run of \s bytes (a shorter run would put
a space where `\d+` needs a digit). -/
def totalExtract? (line : List Char) : Option (List Char) :=
  totalTryK (line.dropWhile isGoSpace)
    ((line.dropWhile isGoSpace).takeWhile Char.isDigit).length

/-- Tail `\d+.{2}\/s` of the speed pattern with the second `\d+` taking
k digits of the leading run, longest k first, then two arbitrary
non-newline bytes and the literal "/s".  Returns the consumed text and the
remainder of the line after it. -/
def speedTryK (s : List Char) : Nat → Option (List Char × List Char)
  | 0 => none
  | k + 1 =>
    (match s.drop (k + 1) with
     | a :: b :: c :: d :: r =>
       if a ≠ '\n' && b ≠ '\n' && c = '/' && d = 's' then
         some (s.take (k + 1) ++ [a, b, c, d], r)
       else none
     | _ => none).orElse (fun _ => speedTryK s k)

/-- Pattern `(\d+\.\d+.{2}\/s)` at one start position: maximal digit run,
a literal dot, then the speed tail. -/
def speedTryAt (s : List Char) : Option (List Char × List Char) :=
  if s.takeWhile Char.isDigit = [] then none
  else
    match s.dropWhile Char.isDigit with
    | '.' :: r2 =>
      (speedTryK r2 (r2.takeWhile Char.isDigit).length).map
        (fun p => (s.takeWhile Char.isDigit ++ '.' :: p.1, p.2))
    | _ => none

/-- Leftmost match of the speed pattern, with the rest of the line after
the match (where the search for further matches continues). -/
def speedFindSplit? : List Char → Option (List Char × List Char)
  | [] => none
  | c :: r =>
    match speedTryAt (c :: r) with
    | some p => some p
    | none => speedFindSplit? r

/-- ExtractAllStringSubmatch(line, n) for the speed matcher: up to n
non-overlapping matches in order, each as [full match, first group]; the
group spans the whole pattern, so both entries coincide. -/
def speedFindAll : Nat → List Char → List (List (List Char))
  | 0, _ => []
  | n + 1, s =>
    match speedFindSplit? s with
    | none => []
    | some (m, rest) => [m, m] :: speedFindAll n rest

/-- One `\d+:` style step of the time pattern at a fixed position: maximal
digit run then the separator; returns consumed text and remainder. -/
def sepRun (sep : Char) (s : List Char) : Option (List Char × List Char) :=
  if s.takeWhile Char.isDigit = [] then none
  else
    match s.dropWhile Char.isDigit with
    | c :: r => if c = sep then some (s.takeWhile Char.isDigit ++ [c], r) else none
    | [] => none

/-- A final maximal `\d+` run at a fixed position. -/
def runEnd (s : List Char) : Option (List Char × List Char) :=
  if s.takeWhile Char.isDigit = [] then none
  else some (s.takeWhile Char.isDigit, s.dropWhile Char.isDigit)

/-- Pattern `(\d+<sep>){2}\d+` at a fixed position. -/
def sepTriple (sep : Char) (s : List Char) : Option (List Char × List Char) :=
  match sepRun sep s with
  | none => none
  | some (a, s1) =>
    match sepRun sep s1 with
    | none => none
    | some (b, s2) =>
      match runEnd s2 with
      | none => none
      | some (c, s3) => some (a ++ b ++ c, s3)

/-- Leftmost full match of `(\d+:){2}\d+` (task.go:147); All()[0] of the
matcher is this first match text. -/
def timeFind? : List Char → Option (List Char)
  | [] => none
  | c :: r =>
    match sepTriple ':' (c :: r) with
    | some (m, _) => some m
    | none => timeFind? r

/-! ## strconv.Atoi and strings.TrimRight -/

/-- Decimal value of a digit run. -/
def digitsToNat (ds : List Char) : Nat :=
  ds.foldl (fun a c => a * 10 + (c.toNat - 48)) 0

/-- ParseInt digit phase for a non-negative number, 64-bit int: syntax
error on an empty or non-digit token gives (0, error); overflow clamps to
the maximal int64 and reports a range error. -/
def goAtoiPos (ds : List Char) : Int × Bool :=
  if ds = [] || !(ds.all Char.isDigit) then (0, false)
  else if digitsToNat ds > 2 ^ 63 - 1 then (((2 : Int) ^ 63 - 1), false)
  else ((digitsToNat ds : Int), true)

/-- ParseInt digit phase after a minus sign: overflow clamps to the minimal
int64 with a range error. -/
def goAtoiNeg (ds : List Char) : Int × Bool :=
  if ds = [] || !(ds.all Char.isDigit) then (0, false)
  else if digitsToNat ds > 2 ^ 63 then ((-((2 : Int) ^ 63)), false)
  else ((-(digitsToNat ds : Int)), true)

/-- strconv.Atoi on a 64-bit platform: optional sign then digits; the
Bool is true iff no error is returned.  On error Go still returns a value
(0 for a syntax error, the clamped bound for a range error) and the caller
in processStdout discards the error. -/
def goAtoi (s : List Char) : Int × Bool :=
  match s with
  | [] => (0, false)
  | c :: cs =>
    if c = '-' then goAtoiNeg cs
    else if c = '+' then goAtoiPos cs
    else goAtoiPos (c :: cs)

/-- strings.TrimRight(s, "%"): removes every trailing percent sign. -/
def trimRightPercent (s : List Char) : List Char :=
  (s.reverse.dropWhile (fun c => c = '%')).reverse

/-! ## State and the stdout processor (task.go:23-28, 141-177) -/

/-- State (task.go:23-28). -/
structure RState where
  timeRemaining : List Char
  downloadedTotal : List Char
  speed : List Char
  progress : Int
deriving DecidableEq

/-- getTaskSpeed (task.go:214-219). -/
def getTaskSpeed (data : List (List (List Char))) : List Char :=
  match data with
  | [] => []
  | first :: _ =>
    match first with
    | a :: _ :: _ => a
    | _ => []

/-- The DownloadedTotal update of processStdout (task.go:157-159). -/
def applyTotal (st : RState) (line : List Char) : RState :=
  if (totalExtract? line).isSome then
    { st with downloadedTotal := (totalExtract? line).getD [] }
  else st

/-- The Progress update of processStdout (task.go:161-164): Extract, trim
the trailing percent signs, Atoi, and keep the value while discarding the
error. -/
def applyProgress (st : RState) (line : List Char) : RState :=
  if (progressFind? line).isSome then
    { st with progress := (goAtoi (trimRightPercent ((progressFind? line).getD []))).1 }
  else st

/-- The TimeRemaining update of processStdout (task.go:166-168). -/
def applyTime (st : RState) (line : List Char) : RState :=
  if (timeFind? line).isSome then
    { st with timeRemaining := (timeFind? line).getD [] }
  else st

/-- The Speed update of processStdout (task.go:170-172). -/
def applySpeed (st : RState) (line : List Char) : RState :=
  if (speedFindSplit? line).isSome then
    { st with speed := getTaskSpeed (speedFindAll 2 line) }
  else st

/-- The body of the scanner loop of processStdout for one line, applied to
the State fields in source order. -/
def processLine (st : RState) (line : List Char) : RState :=
  applySpeed (applyTime (applyProgress (applyTotal st line) line) line) line

/-- The Task-owned data a processStdout round mutates under the lock:
the State and the accumulated Log.Stdout. -/
structure TaskState where
  state : RState
  logStdout : List Char
deriving DecidableEq

/-- One full round of the processStdout loop: field updates plus the
`task.log.Stdout += logStr + "\n"` append (task.go:153-176). -/
def processStdoutLine (t : TaskState) (line : List Char) : TaskState :=
  { state := processLine t.state line, logStdout := t.logStdout ++ line ++ ['\n'] }

/-- processStdout (task.go:141-177) over a fully buffered stdout stream:
frame the lines with scanLines and fold the loop body over them. -/
def processStdoutModel (t : TaskState) (stream : List Char) : TaskState :=
  (runScanner stream).foldl processStdoutLine t

/-- Task.State() (task.go:38-43): the snapshot copy handed to a reader. -/
def taskState (t : TaskState) : RState := t.state

/-- The zeroed State a NewTask starts from (task.go:115). -/
def zeroRState : RState :=
  { timeRemaining := [], downloadedTotal := [], speed := [], progress := 0 }

/-- A fresh Task's stdout-visible data. -/
def zeroTask : TaskState := { state := zeroRState, logStdout := [] }

/-! ## The stderr processor (task.go:179-193) -/

/-- processStderr's loop with bufio ReadString('\n') inlined: `cur` is the
part of the current line read so far.  On the delimiter the code appends
logStr + "\n" where logStr already ends in the delimiter; when the stream
ends before a delimiter, ReadString returns the leftover bytes together
with an error and the loop breaks, discarding them. -/
def stderrAcc : List Char → List Char → List Char → List Char
  | [], _, log => log
  | c :: r, cur, log =>
    if c = '\n' then stderrAcc r [] (log ++ (cur ++ ['\n']) ++ ['\n'])
    else stderrAcc r (cur ++ [c]) log

/-- Log.Stderr after processStderr has drained the given stream. -/
def processStderrModel (data : List Char) : List Char := stderrAcc data [] []

/-- A stderr stream of newline-terminated lines and trailing bytes. -/
def stderrJoin (lines : List (List Char)) (tail : List Char) : List Char :=
  (lines.map (fun l => l ++ ['\n'])).flatten ++ tail

/-! ## GetFileList (task.go:64-72) -/

/-- The class [rwx-] of the listing pattern. -/
def isPermChar (c : Char) : Bool := c = 'r' || c = 'w' || c = 'x' || c = '-'

/-- The listing pattern
`([rwx-]{10}) (\d+) ((?:\d+/){2}\d+) ((?:\d+:){2}\d+) (.*)` tried at one
start position; every digit run is maximal and then the single-space or
separator literal is required (a shorter run would put a digit there), and
`(.*)` greedily captures to the end of the line.  Returns the five capture
groups. -/
def listTryAt (s : List Char) : Option (List (List Char)) :=
  if (s.take 10).length = 10 && (s.take 10).all isPermChar then
    match s.drop 10 with
    | ' ' :: s1 =>
      match runEnd s1 with
      | some (size, s2) =>
        match s2 with
        | ' ' :: s3 =>
          match sepTriple '/' s3 with
          | some (date, s4) =>
            match s4 with
            | ' ' :: s5 =>
              match sepTriple ':' s5 with
              | some (time, s6) =>
                match s6 with
                | ' ' :: s7 =>
                  some [s.take 10, size, date, time, s7.takeWhile (fun c => c ≠ '\n')]
                | _ => none
              | none => none
            | _ => none
          | none => none
        | _ => none
      | none => none
    | _ => none
  else none

/-- Leftmost match of the listing pattern: MatchString is the isSome of
this and FindStringSubmatch[1:] its value. -/
def listFind? : List Char → Option (List (List Char))
  | [] => none
  | c :: r =>
    match listTryAt (c :: r) with
    | some g => some g
    | none => listFind? r

/-- strings.Split(s, "\n"). -/
def splitNL : List Char → List (List Char)
  | [] => [[]]
  | c :: r =>
    if c = '\n' then [] :: splitNL r
    else
      match splitNL r with
      | [] => [[c]]
      | l :: ls => (c :: l) :: ls

/-- GetFileList (task.go:64-72) as a function of the accumulated
Log().Stdout: one record of five captured substrings per matching line, in
line order, skipping lines the pattern does not match. -/
def getFileList (stdoutLog : List Char) : List (List (List Char)) :=
  (splitNL stdoutLog).filterMap listFind?

/-! ## Run (task.go:75-104) -/

/-- The externally visible lifecycle steps Run performs, in order. -/
inductive RunStep
  | spawnStdoutProc
  | spawnStderrProc
  | closeStdoutPipe
  | closeStderrPipe
  | waitGroupWait
deriving DecidableEq

/-- The outcomes the rsync process handle can produce for Run: each
lifecycle call either succeeds (none) or fails with an error. -/
structure RsyncModel where
  stderrPipeErr : Option String
  stdoutPipeErr : Option String
  startErr : Option String
  waitErr : Option String

/-- Run (task.go:75-104) as a function of the handle's outcomes: the
ordered lifecycle steps taken and the error value Run returns.  Goroutine
spawns and the WaitGroup wait appear as steps in source order. -/
def runModel (r : RsyncModel) : List RunStep × Option String :=
  match r.stderrPipeErr with
  | some e => ([], some e)
  | none =>
    match r.stdoutPipeErr with
    | some e => ([RunStep.closeStderrPipe], some e)
    | none =>
      match r.startErr with
      | some e =>
        ([RunStep.spawnStdoutProc, RunStep.spawnStderrProc,
          RunStep.closeStdoutPipe, RunStep.closeStderrPipe,
          RunStep.waitGroupWait], some e)
      | none =>
        ([RunStep.spawnStdoutProc, RunStep.spawnStderrProc,
          RunStep.waitGroupWait], r.waitErr)

/-! ## Concrete inputs used by the claims -/

/-- The sample progress line of the spec. -/
def sampleLine : List Char := "15.17G  10%   92.23MB/s    0:23:54".toList

/-- A progress token whose value exceeds the int64 range. -/
def overflowLine : List Char := "99999999999999999999%".toList

/-- A matched progress token above 100. -/
def pctLine200 : List Char := "200%".toList

/-- The listing log of the claim, with its multi-space padding, plus one
non-matching line, as accumulated by the stdout processor. -/
def paddedListingLog : List Char :=
  "-rw-r--r--       1234 2024/01/02 03:04:05 file.txt\nsending incremental file list\n".toList

/-- The same listing log with single separating spaces. -/
def singleSpaceListingLog : List Char :=
  "-rw-r--r-- 1234 2024/01/02 03:04:05 file.txt\nsending incremental file list\n".toList

/-- Two matching listing lines around a non-matching one. -/
def twoListingsLog : List Char :=
  "-rw-r--r-- 1234 2024/01/02 03:04:05 a.txt\nskip me\n-rwxr-xr-x 99 2023/12/31 23:59:59 b/c.txt\n".toList

/-- A mixed-terminator stream decomposition: four lines ended by LF, CRLF,
CR, CR, the third line empty, then trailing unterminated bytes. -/
def demoSegs : List (List Char × Term) :=
  [("alpha".toList, Term.lf), ("beta".toList, Term.crlf),
   ([], Term.cr), ("gamma".toList, Term.cr)]

/-- The trailing unterminated bytes of the mixed-terminator stream. -/
def demoRest : List Char := "tail".toList

/-- A State holding a previously observed speed. -/
def prevSpeedState : RState := { zeroRState with speed := "1.00MB/s".toList }

/-- A State holding a previously parsed progress value. -/
def sevenState : RState := { zeroRState with progress := 7 }

/-- Two stderr lines and trailing unterminated bytes. -/
def demoErrLines : List (List Char) := ["error one".toList, "error two".toList]

/-- The trailing unterminated stderr bytes. -/
def demoErrTail : List Char := "trunc".toList

/-! ## Helper lemmas about the line framer -/

theorem isEmpty_false_of_ne_nil {l : List Char} (h : l ≠ []) : l.isEmpty = false := by
  cases l with
  | nil => exact absurd rfl h
  | cons a as => rfl

theorem idxAny_none_of_termFree : ∀ l : List Char, termFree l = true → idxAny l = none := by
  intro l
  induction l with
  | nil => intro _; rfl
  | cons c cs ih =>
    intro hl
    simp only [termFree, List.all_cons, Bool.and_eq_true, Bool.not_eq_true'] at hl
    have h2 : termFree cs = true := hl.2
    simp [idxAny, hl.1, ih h2]

theorem idxAny_append_term :
    ∀ (l : List Char) (c : Char) (r : List Char), termFree l = true →
      isTermChar c = true → idxAny (l ++ c :: r) = some l.length := by
  intro l
  induction l with
  | nil => intro c r _ hc; simp [idxAny, hc]
  | cons a as ih =>
    intro c r hl hc
    simp only [termFree, List.all_cons, Bool.and_eq_true, Bool.not_eq_true'] at hl
    simp [idxAny, hl.1, ih c r hl.2 hc]

theorem idxAny_some_lt : ∀ (l : List Char) (i : Nat), idxAny l = some i → i < l.length := by
  intro l
  induction l with
  | nil => intro i h; simp [idxAny] at h
  | cons c cs ih =>
    intro i h
    simp only [idxAny] at h
    by_cases hc : isTermChar c = true
    · rw [if_pos hc] at h
      cases h
      simp
    · rw [if_neg hc] at h
      cases hcs : idxAny cs with
      | none => rw [hcs] at h; simp at h
      | some j =>
        rw [hcs] at h
        simp only [Option.map_some'] at h
        cases h
        have := ih j hcs
        simp only [List.length_cons]
        omega

theorem idxAny_take_termFree :
    ∀ (l : List Char) (i : Nat), idxAny l = some i → termFree (l.take i) = true := by
  intro l
  induction l with
  | nil => intro i h; simp [idxAny] at h
  | cons c cs ih =>
    intro i h
    simp only [idxAny] at h
    by_cases hc : isTermChar c = true
    · rw [if_pos hc] at h
      cases h
      simp [termFree]
    · rw [if_neg hc] at h
      cases hcs : idxAny cs with
      | none => rw [hcs] at h; simp at h
      | some j =>
        rw [hcs] at h
        simp only [Option.map_some'] at h
        cases h
        have hj := ih j hcs
        simp only [List.take_succ_cons, termFree, List.all_cons, Bool.and_eq_true,
          Bool.not_eq_true']
        exact ⟨by simpa using hc, hj⟩

theorem termFree_of_idxAny_none : ∀ l : List Char, idxAny l = none → termFree l = true := by
  intro l
  induction l with
  | nil => intro _; rfl
  | cons c cs ih =>
    intro h
    simp only [idxAny] at h
    by_cases hc : isTermChar c = true
    · rw [if_pos hc] at h; simp at h
    · rw [if_neg hc] at h
      cases hcs : idxAny cs with
      | none =>
        simp only [termFree, List.all_cons, Bool.and_eq_true, Bool.not_eq_true']
        exact ⟨by simpa using hc, ih hcs⟩
      | some j => rw [hcs] at h; simp at h

theorem get?_some_lt :
    ∀ (l : List Char) (n : Nat) (c : Char), l.get? n = some c → n < l.length := by
  intro l
  induction l with
  | nil => intro n c h; simp [List.get?] at h
  | cons a as ih =>
    intro n c h
    cases n with
    | zero => simp
    | succ m =>
      simp only [List.get?] at h
      have := ih m c h
      simp only [List.length_cons]
      omega

theorem get?_append_len :
    ∀ (l : List Char) (c : Char) (r : List Char), (l ++ c :: r).get? l.length = some c := by
  intro l
  induction l with
  | nil => intro c r; rfl
  | cons a as ih => intro c r; simpa using ih c r

theorem get?_append_len_succ :
    ∀ (l : List Char) (c : Char) (r : List Char),
      (l ++ c :: r).get? (l.length + 1) = r.head? := by
  intro l
  induction l with
  | nil =>
    intro c r
    cases r with
    | nil => rfl
    | cons b bs => rfl
  | cons a as ih =>
    intro c r
    simpa using ih c r

theorem take_append_len :
    ∀ (l s : List Char), (l ++ s).take l.length = l := by
  intro l
  induction l with
  | nil => intro s; rfl
  | cons a as ih => intro s; simpa using ih s

theorem drop_append_len :
    ∀ (l s : List Char), (l ++ s).drop l.length = s := by
  intro l
  induction l with
  | nil => intro s; rfl
  | cons a as ih => intro s; simpa using ih s

theorem not_mem_of_termFree (l : List Char) (h : termFree l = true) :
    '\r' ∉ l ∧ '\n' ∉ l := by
  simp only [termFree, List.all_eq_true] at h
  constructor
  · intro hm
    have hx := h _ hm
    simp [isTermChar] at hx
  · intro hm
    have hx := h _ hm
    simp [isTermChar] at hx

theorem scanLines_adv_pos (data : List Char) (h : data ≠ []) :
    1 ≤ (scanLines data true).1 := by
  unfold scanLines
  rw [isEmpty_false_of_ne_nil h]
  simp only [Bool.and_false, Bool.false_eq_true, if_false]
  cases hidx : idxAny data with
  | none =>
    simp only [if_true]
    have : 0 < data.length := List.length_pos.mpr h
    simpa using this
  | some i =>
    simp only []
    by_cases h1 : data.get? i = some '\n'
    · rw [if_pos h1]; omega
    · rw [if_neg h1]
      by_cases h2 : data.get? (i + 1) = some '\n'
      · rw [if_pos h2]; omega
      · rw [if_neg h2]; omega

theorem runScannerF_congr :
    ∀ (f1 f2 : Nat) (data : List Char), data.length < f1 → data.length < f2 →
      runScannerF f1 data = runScannerF f2 data := by
  intro f1
  induction f1 with
  | zero => intro f2 data h1 _; omega
  | succ f ih =>
    intro f2 data h1 h2
    cases f2 with
    | zero => omega
    | succ g =>
      by_cases hd : data = []
      · subst hd; rfl
      · simp only [runScannerF, if_neg hd]
        congr 1
        have hadv := scanLines_adv_pos data hd
        have hlen : (data.drop (scanLines data true).1).length =
            data.length - (scanLines data true).1 := List.length_drop _ _
        have hpos : 0 < data.length := List.length_pos.mpr hd
        exact ih g _ (by omega) (by omega)

theorem runScanner_step (data : List Char) (h : data ≠ []) :
    runScanner data =
      (scanLines data true).2.1 :: runScanner (data.drop (scanLines data true).1) := by
  have hstep : runScannerF (data.length + 1) data =
      (scanLines data true).2.1 ::
        runScannerF data.length (data.drop (scanLines data true).1) := by
    simp only [runScannerF, if_neg h]
  simp only [runScanner]
  rw [hstep]
  congr 1
  have hadv := scanLines_adv_pos data h
  have hlen : (data.drop (scanLines data true).1).length =
      data.length - (scanLines data true).1 := List.length_drop _ _
  have hpos : 0 < data.length := List.length_pos.mpr h
  exact runScannerF_congr _ _ _ (by omega) (by omega)

theorem scanLines_line (l : List Char) (t : Term) (r : List Char)
    (hl : termFree l = true) (hcr : t = Term.cr → r.head? ≠ some '\n') :
    scanLines (l ++ t.chars ++ r) true = (l.length + (t.chars).length, l, none) := by
  cases t with
  | lf =>
    have hre : l ++ Term.lf.chars ++ r = l ++ '\n' :: r := by
      simp [Term.chars]
    rw [hre]
    have hne : l ++ '\n' :: r ≠ [] := by simp
    unfold scanLines
    rw [isEmpty_false_of_ne_nil hne]
    simp only [Bool.and_false, Bool.false_eq_true, if_false]
    rw [idxAny_append_term l '\n' r hl (by decide)]
    simp only []
    rw [if_pos (get?_append_len l '\n' r), take_append_len]
    simp [Term.chars]
  | crlf =>
    have hre : l ++ Term.crlf.chars ++ r = l ++ '\r' :: '\n' :: r := by
      simp [Term.chars]
    rw [hre]
    have hne : l ++ '\r' :: '\n' :: r ≠ [] := by simp
    unfold scanLines
    rw [isEmpty_false_of_ne_nil hne]
    simp only [Bool.and_false, Bool.false_eq_true, if_false]
    rw [idxAny_append_term l '\r' ('\n' :: r) hl (by decide)]
    simp only []
    rw [if_neg (by rw [get?_append_len l '\r' ('\n' :: r)]; decide)]
    rw [if_pos (by rw [get?_append_len_succ l '\r' ('\n' :: r)]; rfl)]
    rw [take_append_len]
    simp [Term.chars]
  | cr =>
    have hre : l ++ Term.cr.chars ++ r = l ++ '\r' :: r := by
      simp [Term.chars]
    rw [hre]
    have hne : l ++ '\r' :: r ≠ [] := by simp
    unfold scanLines
    rw [isEmpty_false_of_ne_nil hne]
    simp only [Bool.and_false, Bool.false_eq_true, if_false]
    rw [idxAny_append_term l '\r' r hl (by decide)]
    simp only []
    rw [if_neg (by rw [get?_append_len l '\r' r]; decide)]
    rw [if_neg (by rw [get?_append_len_succ l '\r' r]; exact hcr rfl)]
    rw [take_append_len]
    simp [Term.chars]

theorem runScanner_seg (l : List Char) (t : Term) (r : List Char)
    (hl : termFree l = true) (hcr : t = Term.cr → r.head? ≠ some '\n') :
    runScanner (l ++ t.chars ++ r) = l :: runScanner r := by
  have hne : l ++ t.chars ++ r ≠ [] := by cases t <;> simp [Term.chars]
  rw [runScanner_step _ hne, scanLines_line l t r hl hcr]
  simp only []
  congr 1
  have hassoc : l ++ t.chars ++ r = (l ++ t.chars) ++ r := rfl
  have hlen : l.length + (t.chars).length = (l ++ t.chars).length := by simp
  rw [hassoc, hlen, drop_append_len]

theorem runScanner_termFree (l : List Char) (h : termFree l = true) :
    runScanner l = if l = [] then [] else [l] := by
  by_cases hl : l = []
  · subst hl; rfl
  · rw [if_neg hl, runScanner_step _ hl]
    have hsl : scanLines l true = (l.length, l, none) := by
      unfold scanLines
      rw [isEmpty_false_of_ne_nil hl]
      simp only [Bool.and_false, Bool.false_eq_true, if_false]
      rw [idxAny_none_of_termFree l h]
      simp only [if_true]
    rw [hsl]
    simp only []
    rw [List.drop_length]
    rfl

/-! ## Claim theorems about the line framer -/

/-- C2: for every byte stream assembled from N terminator-free lines ended
by any mix of LF, CRLF and bare CR (canonically, so that a CR directly
followed by an LF counts as the single CRLF terminator the claim itself
prescribes) plus trailing unterminated bytes, repeated application of
scanLines yields exactly the N lines in order, plus the trailing bytes as
one more line when they are nonempty; no empty extra line appears after a
CR, and every produced line is terminator-free since the inputs are. -/
theorem scanLines_frames_mixed_terminators :
    ∀ (segs : List (List Char × Term)) (rest : List Char),
      (∀ p ∈ segs, termFree p.1 = true) → termFree rest = true →
      canonical segs rest = true →
      runScanner (joinSegs segs rest) =
        segs.map Prod.fst ++ (if rest = [] then [] else [rest]) := by
  intro segs
  induction segs with
  | nil =>
    intro rest _ hrest _
    simpa [joinSegs] using runScanner_termFree rest hrest
  | cons p ss ih =>
    intro rest hsegs hrest hcanon
    obtain ⟨l, t⟩ := p
    simp only [canonical, Bool.and_eq_true] at hcanon
    obtain ⟨hc1, hc2⟩ := hcanon
    have hcr : t = Term.cr → (joinSegs ss rest).head? ≠ some '\n' := by
      intro ht hhd
      rw [ht, hhd] at hc1
      simp at hc1
    have hlt : termFree l = true := hsegs ⟨l, t⟩ (by simp)
    have hss : ∀ p ∈ ss, termFree p.1 = true := fun p hp => hsegs p (by simp [hp])
    simp only [joinSegs]
    rw [runScanner_seg l t (joinSegs ss rest) hlt hcr, ih rest hss hrest hc2]
    simp

/-- Witness for C2 at the concrete mixed stream
"alpha\nbeta\r\n\rgamma\rtail". -/
theorem scanLines_frames_mixed_terminators_witness :
    ((∀ p ∈ demoSegs, termFree p.1 = true) ∧ termFree demoRest = true ∧
      canonical demoSegs demoRest = true) ∧
    runScanner (joinSegs demoSegs demoRest) =
      demoSegs.map Prod.fst ++ [demoRest] := by
  refine ⟨⟨by decide, by decide, by decide⟩, ?_⟩
  have h := scanLines_frames_mixed_terminators demoSegs demoRest
    (by decide) (by decide) (by decide)
  rw [if_neg (by decide)] at h
  exact h

/-- C10: for every input buffer and end-of-stream flag, scanLines returns
a nil error, an advance of at most the buffer length, and a token free of
CR and LF bytes. -/
theorem scanLines_safe (data : List Char) (atEOF : Bool) :
    (scanLines data atEOF).2.2 = none ∧
    (scanLines data atEOF).1 ≤ data.length ∧
    '\r' ∉ (scanLines data atEOF).2.1 ∧ '\n' ∉ (scanLines data atEOF).2.1 := by
  unfold scanLines
  by_cases h0 : (atEOF && data.isEmpty) = true
  · rw [if_pos h0]; simp
  · rw [if_neg h0]
    cases hidx : idxAny data with
    | none =>
      cases atEOF with
      | false => simp
      | true =>
        simp only [if_true]
        have hf : termFree data = true := termFree_of_idxAny_none data hidx
        have hm := not_mem_of_termFree data hf
        exact ⟨by trivial, by trivial, hm.1, hm.2⟩
    | some i =>
      simp only []
      have hi := idxAny_some_lt data i hidx
      have ht := idxAny_take_termFree data i hidx
      have hm := not_mem_of_termFree _ ht
      by_cases h1 : data.get? i = some '\n'
      · rw [if_pos h1]
        exact ⟨rfl, by omega, hm.1, hm.2⟩
      · rw [if_neg h1]
        by_cases h2 : data.get? (i + 1) = some '\n'
        · rw [if_pos h2]
          have := get?_some_lt data (i + 1) '\n' h2
          exact ⟨rfl, by omega, hm.1, hm.2⟩
        · rw [if_neg h2]
          exact ⟨rfl, by omega, hm.1, hm.2⟩

/-! ## Helper lemmas about the stdout field updates -/

theorem applyTotal_progress (st : RState) (line : List Char) :
    (applyTotal st line).progress = st.progress := by
  unfold applyTotal; split <;> rfl

theorem applyTime_progress (st : RState) (line : List Char) :
    (applyTime st line).progress = st.progress := by
  unfold applyTime; split <;> rfl

theorem applySpeed_progress (st : RState) (line : List Char) :
    (applySpeed st line).progress = st.progress := by
  unfold applySpeed; split <;> rfl

theorem applyTotal_speed (st : RState) (line : List Char) :
    (applyTotal st line).speed = st.speed := by
  unfold applyTotal; split <;> rfl

theorem applyProgress_speed (st : RState) (line : List Char) :
    (applyProgress st line).speed = st.speed := by
  unfold applyProgress; split <;> rfl

theorem applyTime_speed (st : RState) (line : List Char) :
    (applyTime st line).speed = st.speed := by
  unfold applyTime; split <;> rfl

theorem applySpeed_none (st : RState) (line : List Char)
    (h : speedFindSplit? line = none) : (applySpeed st line).speed = st.speed := by
  unfold applySpeed
  rw [h]
  rfl

theorem applyProgress_some (st : RState) (line t : List Char)
    (h : progressFind? line = some t) :
    (applyProgress st line).progress = (goAtoi (trimRightPercent t)).1 := by
  unfold applyProgress
  rw [h]
  rfl

theorem processLine_progress (st : RState) (line t : List Char)
    (h : progressFind? line = some t) :
    (processLine st line).progress = (goAtoi (trimRightPercent t)).1 := by
  unfold processLine
  rw [applySpeed_progress, applyTime_progress, applyProgress_some _ _ _ h]

/-! ## Helper lemmas about the progress token and Atoi -/

theorem takeWhile_all (p : Char → Bool) : ∀ l : List Char, (l.takeWhile p).all p = true := by
  intro l
  induction l with
  | nil => rfl
  | cons c cs ih =>
    by_cases h : p c = true
    · simpa [List.takeWhile_cons, h] using ih
    · simp [List.takeWhile_cons, h]

theorem progressTryAt_shape (s t : List Char) (h : progressTryAt s = some t) :
    ∃ ds, ds ≠ [] ∧ ds.all Char.isDigit = true ∧ t = ds ++ ['%'] := by
  unfold progressTryAt at h
  by_cases h0 : s.takeWhile Char.isDigit = []
  · rw [if_pos h0] at h; exact absurd h (by simp)
  · rw [if_neg h0] at h
    by_cases h1 : (s.dropWhile Char.isDigit).head? = some '%'
    · rw [if_pos h1] at h
      refine ⟨s.takeWhile Char.isDigit, h0, takeWhile_all _ s, ?_⟩
      exact (Option.some_injective _ h).symm
    · rw [if_neg h1] at h; exact absurd h (by simp)

theorem progressFind_shape :
    ∀ (l t : List Char), progressFind? l = some t →
      ∃ ds, ds ≠ [] ∧ ds.all Char.isDigit = true ∧ t = ds ++ ['%'] := by
  intro l
  induction l with
  | nil => intro t h; simp [progressFind?] at h
  | cons c r ih =>
    intro t h
    simp only [progressFind?] at h
    cases htry : progressTryAt (c :: r) with
    | some u =>
      rw [htry] at h
      simp only [] at h
      obtain rfl : u = t := Option.some_injective _ h
      exact progressTryAt_shape (c :: r) u htry
    | none =>
      rw [htry] at h
      exact ih t h

theorem isDigit_ne_pct {c : Char} (h : c.isDigit = true) : c ≠ '%' := by
  intro he; rw [he] at h; exact absurd h (by decide)

theorem isDigit_ne_dash {c : Char} (h : c.isDigit = true) : c ≠ '-' := by
  intro he; rw [he] at h; exact absurd h (by decide)

theorem isDigit_ne_plus {c : Char} (h : c.isDigit = true) : c ≠ '+' := by
  intro he; rw [he] at h; exact absurd h (by decide)

theorem trimRightPercent_digits (ds : List Char) (hne : ds ≠ [])
    (hds : ds.all Char.isDigit = true) : trimRightPercent (ds ++ ['%']) = ds := by
  unfold trimRightPercent
  rw [List.reverse_append]
  simp only [List.reverse_cons, List.reverse_nil, List.nil_append, List.singleton_append]
  rw [List.dropWhile_cons]
  simp only [decide_True, if_true]
  cases hrev : ds.reverse with
  | nil =>
    exact absurd (by simpa using congrArg List.reverse hrev) hne
  | cons a as =>
    have ha : a ∈ ds := by
      rw [← List.mem_reverse, hrev]; simp
    have had : a.isDigit = true := by
      simp only [List.all_eq_true] at hds
      exact hds a ha
    rw [List.dropWhile_cons]
    rw [if_neg (by simpa using isDigit_ne_pct had)]
    rw [← hrev, List.reverse_reverse]

theorem goAtoi_digits (ds : List Char) (hne : ds ≠ [])
    (hds : ds.all Char.isDigit = true) : goAtoi ds = goAtoiPos ds := by
  cases ds with
  | nil => exact absurd rfl hne
  | cons c cs =>
    have hc : c.isDigit = true := by
      simp only [List.all_cons, Bool.and_eq_true] at hds
      exact hds.1
    unfold goAtoi
    simp only []
    rw [if_neg (isDigit_ne_dash hc), if_neg (isDigit_ne_plus hc)]

theorem goAtoiPos_spec (ds : List Char) (hne : ds ≠ [])
    (hds : ds.all Char.isDigit = true) :
    goAtoiPos ds =
      if digitsToNat ds > 2 ^ 63 - 1 then (((2 : Int) ^ 63 - 1), false)
      else ((digitsToNat ds : Int), true) := by
  unfold goAtoiPos
  rw [if_neg (by simp [hne, hds])]

/-! ## Claim theorems about the Progress and Speed updates -/

/-- C3 (amended): when the progress pattern matches a line but strconv.Atoi
fails on the matched token (necessarily a range overflow, the trimmed token
being a nonempty digit run), processStdout does not leave Progress at its
previous value: the assignment discards the error and stores the value Atoi
returns with it, the maximal int64. -/
theorem progress_parse_failure_sets_maxint (st : RState) (line t : List Char)
    (hm : progressFind? line = some t)
    (hf : (goAtoi (trimRightPercent t)).2 = false) :
    (processLine st line).progress = 2 ^ 63 - 1 := by
  obtain ⟨ds, hne, hds, rfl⟩ := progressFind_shape line t hm
  rw [trimRightPercent_digits ds hne hds, goAtoi_digits ds hne hds,
    goAtoiPos_spec ds hne hds] at hf
  rw [processLine_progress st line _ hm]
  rw [trimRightPercent_digits ds hne hds, goAtoi_digits ds hne hds,
    goAtoiPos_spec ds hne hds]
  by_cases hov : digitsToNat ds > 2 ^ 63 - 1
  · rw [if_pos hov]
  · rw [if_neg hov] at hf
    simp at hf

/-- Witness for C3's amended theorem at the overflowing token. -/
theorem progress_parse_failure_sets_maxint_witness :
    progressFind? overflowLine = some ("99999999999999999999%".toList) ∧
    (goAtoi (trimRightPercent ("99999999999999999999%".toList))).2 = false ∧
    (processLine zeroRState overflowLine).progress = 2 ^ 63 - 1 := by
  refine ⟨by decide, by decide, ?_⟩
  exact progress_parse_failure_sets_maxint zeroRState overflowLine
    ("99999999999999999999%".toList) (by decide) (by decide)

/-- C3 counterexample: on "99999999999999999999%" the progress pattern
matches, Atoi reports a range error, and Progress does not stay at its
previous value 7. -/
theorem progress_overflow_overwrites_counterexample :
    (progressFind? overflowLine).isSome = true ∧
    (goAtoi (trimRightPercent ((progressFind? overflowLine).getD []))).2 = false ∧
    (processLine sevenState overflowLine).progress ≠ 7 := by decide

/-- C4 (amended): after a line whose progress token matches and parses
without error, Progress is the parsed value: it is nonnegative and at most
the maximal int64, but not bounded by 100. -/
theorem progress_parsed_bounds (st : RState) (line t : List Char)
    (hm : progressFind? line = some t)
    (hok : (goAtoi (trimRightPercent t)).2 = true) :
    0 ≤ (processLine st line).progress ∧
      (processLine st line).progress ≤ 2 ^ 63 - 1 := by
  obtain ⟨ds, hne, hds, rfl⟩ := progressFind_shape line t hm
  rw [trimRightPercent_digits ds hne hds, goAtoi_digits ds hne hds,
    goAtoiPos_spec ds hne hds] at hok
  rw [processLine_progress st line _ hm]
  rw [trimRightPercent_digits ds hne hds, goAtoi_digits ds hne hds,
    goAtoiPos_spec ds hne hds]
  by_cases hov : digitsToNat ds > 2 ^ 63 - 1
  · rw [if_pos hov] at hok
    simp at hok
  · rw [if_neg hov]
    constructor
    · exact Int.natCast_nonneg _
    · have hle : digitsToNat ds ≤ 2 ^ 63 - 1 := by omega
      have : (digitsToNat ds : Int) ≤ ((2 ^ 63 - 1 : Nat) : Int) := by
        exact_mod_cast hle
      calc ((digitsToNat ds : Nat) : Int) ≤ ((2 ^ 63 - 1 : Nat) : Int) := this
        _ = 2 ^ 63 - 1 := by norm_num

/-- Witness for C4's amended theorem at the sample token "10%". -/
theorem progress_parsed_bounds_witness :
    progressFind? ("10%".toList) = some ("10%".toList) ∧
    (goAtoi (trimRightPercent ("10%".toList))).2 = true ∧
    (0 ≤ (processLine zeroRState ("10%".toList)).progress ∧
      (processLine zeroRState ("10%".toList)).progress ≤ 2 ^ 63 - 1) := by
  refine ⟨by decide, by decide, ?_⟩
  exact progress_parsed_bounds zeroRState ("10%".toList) ("10%".toList)
    (by decide) (by decide)

/-- C4 counterexample: the line "200%" matches and parses without error,
yet Progress becomes 200, outside [0,100]. -/
theorem progress_can_exceed_100 :
    (progressFind? pctLine200).isSome = true ∧
    (goAtoi (trimRightPercent ((progressFind? pctLine200).getD []))).2 = true ∧
    (processLine zeroRState pctLine200).progress = 200 ∧
    ¬ ((processLine zeroRState pctLine200).progress ≤ 100) := by decide

/-- C8: a line the speed pattern does not match leaves State.Speed at its
prior value; it is not overwritten with the empty string, because the
assignment is guarded by the matcher. -/
theorem speed_unchanged_without_match (st : RState) (line : List Char)
    (h : speedFindSplit? line = none) :
    (processLine st line).speed = st.speed := by
  unfold processLine
  rw [applySpeed_none _ _ h, applyTime_speed, applyProgress_speed, applyTotal_speed]

/-- Witness for C8: a progress line with no speed token keeps the stored
speed "1.00MB/s". -/
theorem speed_unchanged_without_match_witness :
    speedFindSplit? ("15.17G  10%".toList) = none ∧
    (processLine prevSpeedState ("15.17G  10%".toList)).speed = "1.00MB/s".toList := by
  refine ⟨by decide, ?_⟩
  rw [speed_unchanged_without_match prevSpeedState ("15.17G  10%".toList) (by decide)]
  decide

/-- C1: feeding the stdout bytes "15.17G  10%   92.23MB/s    0:23:54"
through the stdout processor from a zeroed State makes a State() call
return Progress = 10, DownloadedTotal = "15.17G", Speed = "92.23MB/s" and
TimeRemaining = "0:23:54". -/
theorem state_after_sample_progress_line :
    taskState (processStdoutModel zeroTask sampleLine) =
      { timeRemaining := "0:23:54".toList, downloadedTotal := "15.17G".toList,
        speed := "92.23MB/s".toList, progress := 10 } := by decide

/-! ## Claim theorems about GetFileList -/

/-- C5 counterexample: on the claim's log, whose listing line pads the
size field with several spaces, the listing pattern (which requires a
single space between the permission and size fields) matches nothing, so
GetFileList returns no record instead of the claimed one. -/
theorem getFileList_padded_line_skipped :
    getFileList paddedListingLog = [] ∧
    getFileList paddedListingLog ≠
      [["-rw-r--r--".toList, "1234".toList, "2024/01/02".toList,
        "03:04:05".toList, "file.txt".toList]] := by decide

/-- C5 (amended): a listing line matches only with single spaces between
the five fields; on such a log with one non-matching line GetFileList
returns exactly the one record of five captured substrings, and with two
matching lines around a non-matching one it returns the two records in
original line order, skipping the non-matching line. -/
theorem getFileList_single_space_records :
    getFileList singleSpaceListingLog =
      [["-rw-r--r--".toList, "1234".toList, "2024/01/02".toList,
        "03:04:05".toList, "file.txt".toList]] ∧
    getFileList twoListingsLog =
      [["-rw-r--r--".toList, "1234".toList, "2024/01/02".toList,
        "03:04:05".toList, "a.txt".toList],
       ["-rwxr-xr-x".toList, "99".toList, "2023/12/31".toList,
        "23:59:59".toList, "b/c.txt".toList]] := by decide

/-! ## Claim theorems about the stderr processor -/

theorem stderrAcc_no_nl :
    ∀ (l : List Char), '\n' ∉ l →
      ∀ (rest cur log : List Char),
        stderrAcc (l ++ rest) cur log = stderrAcc rest (cur ++ l) log := by
  intro l
  induction l with
  | nil => intro _ rest cur log; simp
  | cons c cs ih =>
    intro h rest cur log
    have hc : c ≠ '\n' := fun he => h (by rw [he]; exact List.mem_cons_self _ _)
    have hcs : '\n' ∉ cs := fun hm => h (List.mem_cons_of_mem _ hm)
    simp only [List.cons_append, stderrAcc, if_neg hc, List.append_eq]
    rw [ih hcs rest (cur ++ [c]) log]
    congr 1
    simp

theorem stderrAcc_run :
    ∀ (lines : List (List Char)) (tail log : List Char),
      (∀ l ∈ lines, '\n' ∉ l) → '\n' ∉ tail →
      stderrAcc (stderrJoin lines tail) [] log =
        log ++ (lines.map (fun l => l ++ ['\n', '\n'])).flatten := by
  intro lines
  induction lines with
  | nil =>
    intro tail log _ ht
    simp only [stderrJoin, List.map_nil, List.flatten_nil, List.nil_append,
      List.append_nil]
    have h := stderrAcc_no_nl tail ht [] [] log
    rw [List.append_nil] at h
    rw [h]
    rfl
  | cons l ls ih =>
    intro tail log hl ht
    have hlnl : '\n' ∉ l := hl l (by simp)
    have hls : ∀ x ∈ ls, '\n' ∉ x := fun x hx => hl x (by simp [hx])
    simp only [stderrJoin, List.map_cons, List.flatten_cons]
    have hre : l ++ ['\n'] ++ ((ls.map (fun x => x ++ ['\n'])).flatten ++ tail) =
        l ++ ('\n' :: ((ls.map (fun x => x ++ ['\n'])).flatten ++ tail)) := by
      simp
    rw [List.append_assoc, hre]
    rw [stderrAcc_no_nl l hlnl _ [] log]
    simp only [List.nil_append, stderrAcc, if_pos rfl]
    have := ih tail (log ++ (l ++ ['\n']) ++ ['\n']) hls ht
    simp only [stderrJoin] at this
    rw [this]
    simp

/-- C6 (amended): for every stderr stream of newline-terminated lines plus
trailing unterminated bytes, Log.Stderr accumulates each line's content
followed by two newlines (ReadString keeps the delimiter and processStderr
appends one more), and the trailing unterminated bytes are discarded when
ReadString returns them together with the end-of-stream error. -/
theorem stderr_log_accumulation (lines : List (List Char)) (tail : List Char)
    (hl : ∀ l ∈ lines, '\n' ∉ l) (ht : '\n' ∉ tail) :
    processStderrModel (stderrJoin lines tail) =
      (lines.map (fun l => l ++ ['\n', '\n'])).flatten := by
  unfold processStderrModel
  rw [stderrAcc_run lines tail [] hl ht]
  rfl

/-- Witness for C6's amended theorem on two lines and a truncated tail. -/
theorem stderr_log_accumulation_witness :
    (∀ l ∈ demoErrLines, '\n' ∉ l) ∧ '\n' ∉ demoErrTail ∧
    processStderrModel (stderrJoin demoErrLines demoErrTail) =
      "error one\n\nerror two\n\n".toList := by
  refine ⟨by decide, by decide, ?_⟩
  rw [stderr_log_accumulation demoErrLines demoErrTail (by decide) (by decide)]
  decide

/-- C6 counterexample: on the stderr stream "a\nb" the code yields
Log.Stderr = "a\n\n" (double newline, final unterminated line dropped),
not the claimed "a\nb\n". -/
theorem stderr_log_double_newline_counterexample :
    processStderrModel ("a\nb".toList) = "a\n\n".toList ∧
    "a\n\n".toList ≠ "a\nb\n".toList := by decide

/-! ## Claim theorem about Run's failure paths -/

/-- C7: if Start fails after both pipes were acquired, Run closes the
stdout and stderr handles, performs the WaitGroup wait for both output
processors, and returns the start error (the processors' outcome and the
process wait error play no part); and if the stdout pipe acquisition
fails, Run closes the already-acquired stderr pipe and returns that error
immediately, spawning nothing. -/
theorem run_failure_paths (r : RsyncModel) (e : String) :
    (r.stderrPipeErr = none → r.stdoutPipeErr = none → r.startErr = some e →
      runModel r =
        ([RunStep.spawnStdoutProc, RunStep.spawnStderrProc,
          RunStep.closeStdoutPipe, RunStep.closeStderrPipe,
          RunStep.waitGroupWait], some e)) ∧
    (r.stderrPipeErr = none → r.stdoutPipeErr = some e →
      runModel r = ([RunStep.closeStderrPipe], some e)) := by
  constructor
  · intro h1 h2 h3
    unfold runModel
    rw [h1, h2, h3]
  · intro h1 h2
    unfold runModel
    rw [h1, h2]

/-- Witness for C7 at concrete handle outcomes; in the start-failure case
the process wait outcome is an error as well, and is still not returned. -/
theorem run_failure_paths_witness :
    runModel ⟨none, none, some "boom", some "w"⟩ =
      ([RunStep.spawnStdoutProc, RunStep.spawnStderrProc,
        RunStep.closeStdoutPipe, RunStep.closeStderrPipe,
        RunStep.waitGroupWait], some "boom") ∧
    runModel ⟨none, some "pipefail", none, none⟩ =
      ([RunStep.closeStderrPipe], some "pipefail") :=
  ⟨(run_failure_paths ⟨none, none, some "boom", some "w"⟩ "boom").1 rfl rfl rfl,
   (run_failure_paths ⟨none, some "pipefail", none, none⟩ "pipefail").2 rfl rfl⟩

end Grsync
